import Mathlib

/-!
Verification of the Open3D `SlabHashBackend` (cpp/open3d/core/hashmap/CUDA/
SlabHashBackend.h) against its natural-language specification.

Shallow embedding notes.
* Keys and values are modelled as natural numbers; the backend is generic
  over the key type and hash function, so every operation below takes the
  hash function as an explicit parameter (`hash : Key → Nat`), mirroring
  the `Hash` template parameter.
* The host file orchestrates CUDA kernels (`InsertKernelPass0/1/2`,
  `FindKernel`, `EraseKernelPass0/1`, `GetActiveIndicesKernel`) whose
  bodies live in `SlabHashBackendImpl.h`, which is not part of the
  sources given here; those kernels, the `HashBackendBuffer` heap and the
  `SlabNodeManager` are modelled from the spec (sections 4.1-4.6), as
  flagged on each definition.  The batch-parallel kernels are modelled as
  sequential loops over the batch: the spec states that within a phase
  operations on distinct keys commute, and the claims under study only
  concern batches of distinct keys or single keys.
* `float` arithmetic in `Insert`/`Rehash` (average capacity per bucket and
  the `std::ceil` of its quotients) is modelled as exact rational
  arithmetic, i.e. as ceiling division on naturals (`ceilDivNat`).
* Uninitialized device memory read by `Rehash` (the `active_buf_indices`
  tensor entries beyond what `GetActiveIndicesKernel` wrote) is modelled
  by an explicit parameter `junk : Nat → Nat` giving the content of the
  unwritten positions.
-/

abbrev Key := Nat
abbrev Val := Nat

/-- Ceiling division on naturals: `ceilDivNat a b = ⌈a / b⌉` for `b > 0`.
Models `int64_t(std::ceil(...))` of an exact quotient. -/
def ceilDivNat (a b : Nat) : Nat := (a + b - 1) / b

/-- The observable state of one `SlabHashBackend` instance.

* `bucket_count` / `capacity` / `heap_top`: the `bucket_count_`,
  `capacity_` and heap-top counter of the backend and its
  `HashBackendBuffer`.
* `buckets b`: the chain of live `(key, buf_index)` entries hanging off
  bucket head `b` (the slab list, flattened; slab-node boundaries are
  internal to the `SlabNodeManager` and not observable).
* `keyBuf r`: content of key slot `r` of the heap buffer.
* `valBuf r c`: content of value column `c` at slot `r`.
* `n_values`: the declared number of value columns
  (`buffer_accessor_.n_values_`). -/
structure SlabHashState where
  bucket_count : Nat
  capacity : Nat
  heap_top : Nat
  buckets : Nat → List (Key × Nat)
  keyBuf : Nat → Key
  valBuf : Nat → Nat → Val
  n_values : Nat

namespace SlabHash

/-- Model of `SlabHashBackend::Allocate(bucket_count, capacity)`: fresh buffers,
bucket heads memset to the empty sentinel, heap top 0. -/
def Allocate (bucket_count capacity n_values : Nat) : SlabHashState :=
  { bucket_count := bucket_count
    capacity := capacity
    heap_top := 0
    buckets := fun _ => []
    keyBuf := fun _ => 0
    valBuf := fun _ _ => 0
    n_values := n_values }

/-- The constructor: `init_buckets = init_capacity * 2;
Allocate(init_buckets, init_capacity)`. -/
def mkBackend (init_capacity n_values : Nat) : SlabHashState :=
  Allocate (init_capacity * 2) init_capacity n_values

/-- Model of `SlabHashBackend::Size()`: returns `buffer_->GetHeapTopIndex()`. -/
def Size (s : SlabHashState) : Nat := s.heap_top

/-- Modelled from the spec: per-key behaviour of `FindKernel`
(`SlabHashBackendImpl.h`, not in the given sources): walk the key's
bucket chain read-only; the slot index is returned iff the key is found
(`none` models `success_mask = false`, in which case the output slot
index is unspecified). -/
def findOne (hash : Key → Nat) (s : SlabHashState) (k : Key) : Option Nat :=
  ((s.buckets (hash k % s.bucket_count)).find? (fun e => e.1 == k)).map (fun e => e.2)

/-- Model of `SlabHashBackend::Find`: batched lookup, one `findOne` per key. -/
def Find (hash : Key → Nat) (s : SlabHashState) (keys : List Key) : List (Option Nat) :=
  keys.map (findOne hash s)

/-- Modelled from the spec: per-key behaviour of `InsertKernelPass0` and
`InsertKernelPass1` (not in the given sources), spec section 4.3 phase 2:
if the key is already present, return the existing slot index with
success, leaving the pre-reserved slot `r` unused; otherwise link a new
`(key, r)` entry into the bucket chain, write the key into key slot `r`,
and return `r` with success. -/
def insertOne (hash : Key → Nat) (s : SlabHashState) (k : Key) (r : Nat) :
    SlabHashState × Nat × Bool :=
  let b := hash k % s.bucket_count
  match (s.buckets b).find? (fun e => e.1 == k) with
  | some e => (s, e.2, true)
  | none =>
      ({ s with
          buckets := fun i => if i = b then s.buckets b ++ [(k, r)] else s.buckets i
          keyBuf := fun i => if i = r then k else s.keyBuf i },
       r, true)

/-- Modelled from the spec: the probe-and-link phase over the whole batch,
processing key `i` with pre-reserved slot index `r + i`. -/
def insertLoop (hash : Key → Nat) (s : SlabHashState) (keys : List Key) (r : Nat) :
    SlabHashState × List (Nat × Bool) :=
  match keys with
  | [] => (s, [])
  | k :: ks =>
      let one := insertOne hash s k r
      let rest := insertLoop hash one.1 ks (r + 1)
      (rest.1, one.2 :: rest.2)

/-- Value tuple element: column `c` of batch element `i` in the
structure-of-arrays input `input_values_soa`. -/
def tupleAt (vals : List (List Val)) (i c : Nat) : Val :=
  (vals.getD c []).getD i 0

/-- Writing one value tuple (`n_values` columns) into slot `r`. -/
def writeVal (s : SlabHashState) (r : Nat) (tuple : Nat → Val) (nv : Nat) :
    SlabHashState :=
  { s with
      valBuf := fun i => if i = r then (fun c => if c < nv then tuple c else 0)
                         else s.valBuf i }

/-- Modelled from the spec: `InsertKernelPass2` — for each batch element
with a set mask, copy its value tuple to the assigned slot's value
columns. -/
def pass2 (outs : List (Nat × Bool)) (vals : List (List Val)) (nv i : Nat)
    (s : SlabHashState) : SlabHashState :=
  match outs with
  | [] => s
  | o :: rest =>
      pass2 rest vals nv (i + 1)
        (if o.2 then writeVal s o.1 (fun c => tupleAt vals i c) nv else s)

/-- Model of `SlabHashBackend::InsertImpl`: early-return on `count == 0`; bump the
heap top by `count` (`heap_top_ = prev_heap_top + count`); run the
probe-and-link passes; compute
`n_values = input_values_soa.size() == n_values_ ? n_values_ : 0` and run
the value-scatter pass (which writes nothing when `n_values` is 0). -/
def InsertImpl (hash : Key → Nat) (s : SlabHashState) (keys : List Key)
    (vals : List (List Val)) : SlabHashState × List (Nat × Bool) :=
  if keys.length = 0 then (s, [])
  else
    let prev := s.heap_top
    let s0 := { s with heap_top := prev + keys.length }
    let res := insertLoop hash s0 keys prev
    let nv := if vals.length = s.n_values then s.n_values else 0
    let s2 := if nv = 0 then res.1 else pass2 res.2 vals nv 0 res.1
    (s2, res.2)

/-- Model of `SlabHashBackend::GetActiveIndices`, modelled from the spec for the
kernel body: collect the buffer index of every live entry by scanning
every bucket chain (the model fixes bucket order; the device kernel's
append order is arbitrary).  The returned count is the list length. -/
def GetActiveIndices (s : SlabHashState) : List Nat :=
  ((List.range s.bucket_count).flatMap s.buckets).map (fun e => e.2)

/-- Model of `SlabHashBackend::Rehash(buckets)`: `count = Size()`; collect active
indices (the `active_buf_indices` tensor has `count` entries but only
`(GetActiveIndices s).length` of them are written — the rest read as
`junk`); gather keys and value columns at those indices; free everything
and `Allocate(buckets, max(ceil(buckets * capacity_ / bucket_count_),
active_keys.GetLength()))`; finally re-run `InsertImpl` on the gathered
keys/values when `count > 0`. -/
def Rehash (hash : Key → Nat) (junk : Nat → Nat) (s : SlabHashState) (b : Nat) :
    SlabHashState :=
  let count := Size s
  let act := GetActiveIndices s
  let gathered := (List.range count).map (fun j => act.getD j (junk j))
  let activeKeys := gathered.map s.keyBuf
  let activeVals := (List.range s.n_values).map (fun c => gathered.map (fun r => s.valBuf r c))
  let fresh := Allocate b (max (ceilDivNat (b * s.capacity) s.bucket_count) count)
      s.n_values
  if count = 0 then fresh else (InsertImpl hash fresh activeKeys activeVals).1

/-- Model of `SlabHashBackend::Insert`: if `Size() + count > capacity_`, first
`Rehash(max(bucket_count_ * 2, ceil((Size() + count) * bucket_count_ /
capacity_)))`, then `InsertImpl`. -/
def Insert (hash : Key → Nat) (junk : Nat → Nat) (s : SlabHashState)
    (keys : List Key) (vals : List (List Val)) :
    SlabHashState × List (Nat × Bool) :=
  let newSize := Size s + keys.length
  let s1 :=
    if s.capacity < newSize then
      Rehash hash junk s
        (max (s.bucket_count * 2) (ceilDivNat (newSize * s.bucket_count) s.capacity))
    else s
  InsertImpl hash s1 keys vals

/-- Model of `SlabHashBackend::Activate`: `Insert` with an empty vector of value
columns. -/
def Activate (hash : Key → Nat) (junk : Nat → Nat) (s : SlabHashState)
    (keys : List Key) : SlabHashState × List (Nat × Bool) :=
  Insert hash junk s keys []

/-- Modelled from the spec: per-key behaviour of `EraseKernelPass0` and
`EraseKernelPass1` (not in the given sources), spec section 4.4: locate
the key's slab entry; if present, unlink it (mask true); if absent, mask
false and no mutation.  The freed heap slot is not recycled into the heap
(spec sections 4.1 and 9), so `heap_top` is unchanged. -/
def eraseOne (hash : Key → Nat) (s : SlabHashState) (k : Key) :
    SlabHashState × Bool :=
  let b := hash k % s.bucket_count
  if (s.buckets b).any (fun e => e.1 == k) then
    ({ s with
        buckets := fun i => if i = b then (s.buckets b).eraseP (fun e => e.1 == k)
                            else s.buckets i },
     true)
  else (s, false)

/-- Model of `SlabHashBackend::Erase`: batched erase, one `eraseOne` per key. -/
def Erase (hash : Key → Nat) (s : SlabHashState) (keys : List Key) :
    SlabHashState × List Bool :=
  match keys with
  | [] => (s, [])
  | k :: ks =>
      let one := eraseOne hash s k
      let rest := Erase hash one.1 ks
      (rest.1, one.2 :: rest.2)

/-- Model of `SlabHashBackend::Clear`: `ResetHeap()` (heap top to 0, slot contents
untouched), bucket heads memset to the empty sentinel, node manager
reset; backing memory (`capacity_`, `bucket_count_`, the buffers) is kept. -/
def Clear (s : SlabHashState) : SlabHashState :=
  { s with heap_top := 0, buckets := fun _ => [] }

/-- Well-formedness carried by every reachable backend: positive bucket
count and capacity, and the heap top within capacity. -/
def WF (s : SlabHashState) : Prop :=
  0 < s.bucket_count ∧ 0 < s.capacity ∧ s.heap_top ≤ s.capacity

/-! ### Concrete example states used by witnesses and counterexamples -/

/-- A fixed stand-in for the contents of uninitialized device memory. -/
def junk0 : Nat → Nat := fun _ => 0

/-- An empty backend with capacity 4 (hence 8 buckets), no value columns. -/
def exEmpty : SlabHashState := mkBackend 4 0

/-- State `exEmpty` after inserting key 7 (slot 0, heap top 1). -/
def exOne : SlabHashState := (Insert id junk0 exEmpty [7] []).1

/-- A capacity-2 backend (4 buckets) holding keys 10 and 11 at slots 0, 1. -/
def exTwo : SlabHashState := (Insert id junk0 (mkBackend 2 0) [10, 11] []).1

/-- State `exTwo` after erasing key 11: heap top stays 2 but only slot 0 is live. -/
def exErased : SlabHashState := (Erase id exTwo [11]).1

/-- An empty backend with one declared value column. -/
def exVal : SlabHashState := Allocate 4 4 1

/-! ### Arithmetic facts about ceiling division -/

theorem le_mul_ceilDivNat (a : Nat) {b : Nat} (hb : 0 < b) :
    a ≤ b * ceilDivNat a b := by
  unfold ceilDivNat
  have h := Nat.div_add_mod (a + b - 1) b
  have h2 : (a + b - 1) % b < b := Nat.mod_lt _ hb
  obtain ⟨t, ht⟩ : ∃ t, b * ((a + b - 1) / b) = t := ⟨_, rfl⟩
  rw [ht] at h ⊢
  omega

theorem ceilDivNat_mul_self (a : Nat) {b : Nat} (hb : 0 < b) :
    ceilDivNat (a * b) b = a := by
  unfold ceilDivNat
  have h1 : a * b + b - 1 = b - 1 + a * b := by
    rw [Nat.add_sub_assoc hb, Nat.add_comm]
  rw [h1, Nat.add_mul_div_right _ _ hb, Nat.div_eq_of_lt (by omega), Nat.zero_add]

theorem ceilDivNat_le_ceilDivNat {a a' : Nat} (b : Nat) (h : a ≤ a') :
    ceilDivNat a b ≤ ceilDivNat a' b :=
  Nat.div_le_div_right (by omega)

theorem ceilDivNat_pos {a b : Nat} (ha : 0 < a) (hb : 0 < b) :
    0 < ceilDivNat a b := by
  unfold ceilDivNat
  exact Nat.div_pos (by omega) hb

/-- If the target bucket count `eb` is at least `⌈ns * bc / cap⌉` (the
`Insert` growth target for new size `ns`), then the rehashed capacity
`⌈eb * cap / bc⌉` is at least `ns`. -/
theorem rehash_capacity_bound {ns bc cap eb : Nat} (hbc : 0 < bc) (hcap : 0 < cap)
    (heb : ceilDivNat (ns * bc) cap ≤ eb) : ns ≤ ceilDivNat (eb * cap) bc := by
  have h1 : ns * bc ≤ cap * ceilDivNat (ns * bc) cap := le_mul_ceilDivNat _ hcap
  have h2 : cap * ceilDivNat (ns * bc) cap ≤ cap * eb := Nat.mul_le_mul_left _ heb
  have h3 : ns * bc ≤ eb * cap := by
    calc ns * bc ≤ cap * eb := le_trans h1 h2
    _ = eb * cap := Nat.mul_comm _ _
  calc ns = ceilDivNat (ns * bc) bc := (ceilDivNat_mul_self ns hbc).symm
  _ ≤ ceilDivNat (eb * cap) bc := ceilDivNat_le_ceilDivNat bc h3

/-- Lemma: `ceilDivNat m c` agrees with the rational ceiling of `m / c`. -/
theorem ceilDivNat_cast_eq_ceil (m c : Nat) (hc : 0 < c) :
    (ceilDivNat m c : ℤ) = ⌈(m : ℚ) / (c : ℚ)⌉ := by
  have hcq : (0 : ℚ) < (c : ℚ) := by exact_mod_cast hc
  refine le_antisymm ?_ ?_
  · have h2 : ceilDivNat m c * c ≤ m + c - 1 := by
      have h := Nat.div_mul_le_self (m + c - 1) c
      unfold ceilDivNat
      exact h
    have h3 : ((ceilDivNat m c : ℤ) - 1) < ⌈(m : ℚ) / (c : ℚ)⌉ := by
      rw [Int.lt_ceil, lt_div_iff₀ hcq]
      have h4 : ((ceilDivNat m c : ℚ)) * (c : ℚ) ≤ (m : ℚ) + (c : ℚ) - 1 := by
        have h5 : ((ceilDivNat m c * c : Nat) : ℚ) ≤ ((m + c - 1 : Nat) : ℚ) := by
          exact_mod_cast h2
        push_cast [Nat.cast_sub (by omega : 1 ≤ m + c)] at h5
        linarith
      push_cast
      rw [sub_mul, one_mul]
      linarith
    omega
  · rw [Int.ceil_le, div_le_iff₀ hcq]
    have h1 : m ≤ c * ceilDivNat m c := le_mul_ceilDivNat m hc
    have h6 : ((m : Nat) : ℚ) ≤ ((c * ceilDivNat m c : Nat) : ℚ) := by exact_mod_cast h1
    push_cast at h6
    push_cast
    linarith

/-- Lemma: `ceilDivNat (a*b) c` is the exact-arithmetic value of the source's
`int64_t(std::ceil(float(a) / (float(c) / float(b))))`. -/
theorem ceilDivNat_eq_rat_ceil {a b c : Nat} (hc : 0 < c) :
    (ceilDivNat (a * b) c : ℤ) = ⌈(a : ℚ) / ((c : ℚ) / (b : ℚ))⌉ := by
  have hdiv : (a : ℚ) / ((c : ℚ) / (b : ℚ)) = ((a * b : Nat) : ℚ) / (c : ℚ) := by
    push_cast
    rw [div_div_eq_mul_div]
  rw [hdiv, ceilDivNat_cast_eq_ceil _ _ hc]

/-! ### Frame and behaviour lemmas for the insert passes -/

theorem insertOne_heap_top (hash : Key → Nat) (s : SlabHashState) (k : Key) (r : Nat) :
    (insertOne hash s k r).1.heap_top = s.heap_top := by
  simp only [insertOne]
  cases (s.buckets (hash k % s.bucket_count)).find? (fun e => e.1 == k) <;> rfl

theorem insertOne_capacity (hash : Key → Nat) (s : SlabHashState) (k : Key) (r : Nat) :
    (insertOne hash s k r).1.capacity = s.capacity := by
  simp only [insertOne]
  cases (s.buckets (hash k % s.bucket_count)).find? (fun e => e.1 == k) <;> rfl

theorem insertOne_bucket_count (hash : Key → Nat) (s : SlabHashState) (k : Key) (r : Nat) :
    (insertOne hash s k r).1.bucket_count = s.bucket_count := by
  simp only [insertOne]
  cases (s.buckets (hash k % s.bucket_count)).find? (fun e => e.1 == k) <;> rfl

theorem insertOne_n_values (hash : Key → Nat) (s : SlabHashState) (k : Key) (r : Nat) :
    (insertOne hash s k r).1.n_values = s.n_values := by
  simp only [insertOne]
  cases (s.buckets (hash k % s.bucket_count)).find? (fun e => e.1 == k) <;> rfl

theorem insertOne_out_fresh (hash : Key → Nat) (s : SlabHashState) (k : Key) (r : Nat)
    (h : findOne hash s k = none) : (insertOne hash s k r).2 = (r, true) := by
  have hf : (s.buckets (hash k % s.bucket_count)).find? (fun e => e.1 == k) = none := by
    simpa [findOne] using h
  simp [insertOne, hf]

theorem insertOne_findOne_self (hash : Key → Nat) (s : SlabHashState) (k : Key) (r : Nat)
    (h : findOne hash s k = none) :
    findOne hash (insertOne hash s k r).1 k = some r := by
  have hf : (s.buckets (hash k % s.bucket_count)).find? (fun e => e.1 == k) = none := by
    simpa [findOne] using h
  simp [insertOne, hf, findOne, List.find?_append]

theorem insertOne_findOne_other (hash : Key → Nat) (s : SlabHashState) (k : Key) (r : Nat)
    (k' : Key) (hne : k' ≠ k) :
    findOne hash (insertOne hash s k r).1 k' = findOne hash s k' := by
  simp only [insertOne]
  cases hf : (s.buckets (hash k % s.bucket_count)).find? (fun e => e.1 == k) with
  | some e => rfl
  | none =>
      simp only [findOne]
      by_cases hb : hash k' % s.bucket_count = hash k % s.bucket_count
      · rw [hb]
        have hkk : (k == k') = false := by simp [Ne.symm hne]
        simp [List.find?_append, List.find?, hkk]
      · simp [hb]

theorem insertLoop_heap_top (hash : Key → Nat) (s : SlabHashState) (keys : List Key)
    (r : Nat) : (insertLoop hash s keys r).1.heap_top = s.heap_top := by
  induction keys generalizing s r with
  | nil => rfl
  | cons k ks ih => simp [insertLoop, ih, insertOne_heap_top]

theorem insertLoop_capacity (hash : Key → Nat) (s : SlabHashState) (keys : List Key)
    (r : Nat) : (insertLoop hash s keys r).1.capacity = s.capacity := by
  induction keys generalizing s r with
  | nil => rfl
  | cons k ks ih => simp [insertLoop, ih, insertOne_capacity]

theorem insertLoop_bucket_count (hash : Key → Nat) (s : SlabHashState) (keys : List Key)
    (r : Nat) : (insertLoop hash s keys r).1.bucket_count = s.bucket_count := by
  induction keys generalizing s r with
  | nil => rfl
  | cons k ks ih => simp [insertLoop, ih, insertOne_bucket_count]

theorem insertLoop_n_values (hash : Key → Nat) (s : SlabHashState) (keys : List Key)
    (r : Nat) : (insertLoop hash s keys r).1.n_values = s.n_values := by
  induction keys generalizing s r with
  | nil => rfl
  | cons k ks ih => simp [insertLoop, ih, insertOne_n_values]

theorem insertLoop_findOne_not_mem (hash : Key → Nat) (s : SlabHashState)
    (keys : List Key) (r : Nat) (k : Key) (h : k ∉ keys) :
    findOne hash (insertLoop hash s keys r).1 k = findOne hash s k := by
  induction keys generalizing s r with
  | nil => rfl
  | cons k' ks ih =>
      have h1 : k ≠ k' := fun he => h (he ▸ List.mem_cons_self k' ks)
      have h2 : k ∉ ks := fun hm => h (List.mem_cons_of_mem _ hm)
      simp only [insertLoop]
      rw [ih _ _ h2, insertOne_findOne_other hash s k' r k h1]

/-- The probe-and-link phase on a batch of pairwise-distinct keys, none of
which is present: key `i` gets slot `r + i` with a success mask, and
afterwards looking it up returns exactly that slot. -/
theorem insertLoop_spec (hash : Key → Nat) (s : SlabHashState) (keys : List Key)
    (r : Nat) (hnd : keys.Nodup) (hfresh : ∀ k ∈ keys, findOne hash s k = none) :
    ∀ i (h : i < keys.length),
      (insertLoop hash s keys r).2.get? i = some (r + i, true) ∧
      findOne hash (insertLoop hash s keys r).1 (keys.get ⟨i, h⟩) = some (r + i) := by
  induction keys generalizing s r with
  | nil => intro i h; exact absurd h (Nat.not_lt_zero i)
  | cons k ks ih =>
      have hk : findOne hash s k = none := hfresh k (List.mem_cons_self k ks)
      have hknks : k ∉ ks := (List.nodup_cons.mp hnd).1
      have hndks : ks.Nodup := (List.nodup_cons.mp hnd).2
      have hfresh1 : ∀ k' ∈ ks, findOne hash (insertOne hash s k r).1 k' = none := by
        intro k' hk'
        have hne : k' ≠ k := fun he => hknks (he ▸ hk')
        rw [insertOne_findOne_other hash s k r k' hne]
        exact hfresh k' (List.mem_cons_of_mem _ hk')
      intro i h
      match i with
      | 0 =>
          constructor
          · simp [insertLoop, insertOne_out_fresh hash s k r hk]
          · simp only [insertLoop, List.get]
            rw [insertLoop_findOne_not_mem hash _ ks (r + 1) k hknks]
            simpa using insertOne_findOne_self hash s k r hk
      | i + 1 =>
          have hlt : i < ks.length := by simpa using h
          have := ih (insertOne hash s k r).1 (r + 1) hndks hfresh1 i hlt
          constructor
          · simp only [insertLoop, List.get?]
            rw [this.1]
            have : r + 1 + i = r + (i + 1) := by omega
            rw [this]
          · simp only [insertLoop, List.get]
            rw [this.2]
            have : r + 1 + i = r + (i + 1) := by omega
            rw [this]

theorem pass2_buckets (outs : List (Nat × Bool)) (vals : List (List Val)) (nv i : Nat)
    (s : SlabHashState) : (pass2 outs vals nv i s).buckets = s.buckets := by
  induction outs generalizing i s with
  | nil => rfl
  | cons o rest ih =>
      simp only [pass2]
      rw [ih]
      by_cases h : o.2 <;> simp [h, writeVal]

theorem pass2_heap_top (outs : List (Nat × Bool)) (vals : List (List Val)) (nv i : Nat)
    (s : SlabHashState) : (pass2 outs vals nv i s).heap_top = s.heap_top := by
  induction outs generalizing i s with
  | nil => rfl
  | cons o rest ih =>
      simp only [pass2]
      rw [ih]
      by_cases h : o.2 <;> simp [h, writeVal]

theorem pass2_bucket_count (outs : List (Nat × Bool)) (vals : List (List Val)) (nv i : Nat)
    (s : SlabHashState) : (pass2 outs vals nv i s).bucket_count = s.bucket_count := by
  induction outs generalizing i s with
  | nil => rfl
  | cons o rest ih =>
      simp only [pass2]
      rw [ih]
      by_cases h : o.2 <;> simp [h, writeVal]

theorem pass2_capacity (outs : List (Nat × Bool)) (vals : List (List Val)) (nv i : Nat)
    (s : SlabHashState) : (pass2 outs vals nv i s).capacity = s.capacity := by
  induction outs generalizing i s with
  | nil => rfl
  | cons o rest ih =>
      simp only [pass2]
      rw [ih]
      by_cases h : o.2 <;> simp [h, writeVal]

theorem pass2_n_values (outs : List (Nat × Bool)) (vals : List (List Val)) (nv i : Nat)
    (s : SlabHashState) : (pass2 outs vals nv i s).n_values = s.n_values := by
  induction outs generalizing i s with
  | nil => rfl
  | cons o rest ih =>
      simp only [pass2]
      rw [ih]
      by_cases h : o.2 <;> simp [h, writeVal]

theorem pass2_findOne (hash : Key → Nat) (outs : List (Nat × Bool))
    (vals : List (List Val)) (nv i : Nat) (s : SlabHashState) (k : Key) :
    findOne hash (pass2 outs vals nv i s) k = findOne hash s k := by
  simp [findOne, pass2_buckets, pass2_bucket_count]

theorem findOne_set_heap (hash : Key → Nat) (s : SlabHashState) (k : Key) (x : Nat) :
    findOne hash { s with heap_top := x } k = findOne hash s k := rfl

theorem InsertImpl_heap_top (hash : Key → Nat) (s : SlabHashState) (keys : List Key)
    (vals : List (List Val)) :
    (InsertImpl hash s keys vals).1.heap_top = s.heap_top + keys.length := by
  by_cases h : keys.length = 0
  · simp [InsertImpl, h]
  · simp only [InsertImpl, if_neg h]
    split <;> split <;>
      first
        | rw [insertLoop_heap_top]
        | rw [pass2_heap_top, insertLoop_heap_top]

theorem InsertImpl_capacity (hash : Key → Nat) (s : SlabHashState) (keys : List Key)
    (vals : List (List Val)) :
    (InsertImpl hash s keys vals).1.capacity = s.capacity := by
  by_cases h : keys.length = 0
  · simp [InsertImpl, h]
  · simp only [InsertImpl, if_neg h]
    split <;> split <;>
      first
        | rw [insertLoop_capacity]
        | rw [pass2_capacity, insertLoop_capacity]

theorem InsertImpl_bucket_count (hash : Key → Nat) (s : SlabHashState) (keys : List Key)
    (vals : List (List Val)) :
    (InsertImpl hash s keys vals).1.bucket_count = s.bucket_count := by
  by_cases h : keys.length = 0
  · simp [InsertImpl, h]
  · simp only [InsertImpl, if_neg h]
    split <;> split <;>
      first
        | rw [insertLoop_bucket_count]
        | rw [pass2_bucket_count, insertLoop_bucket_count]

theorem InsertImpl_n_values (hash : Key → Nat) (s : SlabHashState) (keys : List Key)
    (vals : List (List Val)) :
    (InsertImpl hash s keys vals).1.n_values = s.n_values := by
  by_cases h : keys.length = 0
  · simp [InsertImpl, h]
  · simp only [InsertImpl, if_neg h]
    split <;> split <;>
      first
        | rw [insertLoop_n_values]
        | rw [pass2_n_values, insertLoop_n_values]

/-- Lemma: `InsertImpl` on a batch of pairwise-distinct absent keys: key `i` is
assigned slot index `heap_top + i` with a success mask, and afterwards a
lookup on it returns exactly that slot. -/
theorem InsertImpl_spec (hash : Key → Nat) (s : SlabHashState) (keys : List Key)
    (vals : List (List Val)) (hnd : keys.Nodup)
    (hfresh : ∀ k ∈ keys, findOne hash s k = none) :
    ∀ i (h : i < keys.length),
      (InsertImpl hash s keys vals).2.get? i = some (s.heap_top + i, true) ∧
      findOne hash (InsertImpl hash s keys vals).1 (keys.get ⟨i, h⟩) =
        some (s.heap_top + i) := by
  intro i h
  have hne : ¬ keys.length = 0 := by omega
  have hfresh0 : ∀ k ∈ keys,
      findOne hash { s with heap_top := s.heap_top + keys.length } k = none := hfresh
  have hspec := insertLoop_spec hash { s with heap_top := s.heap_top + keys.length }
    keys s.heap_top hnd hfresh0 i h
  simp only [InsertImpl, if_neg hne]
  constructor
  · exact hspec.1
  · split <;> split <;>
      first
        | exact hspec.2
        | (rw [pass2_findOne]; exact hspec.2)

theorem insertOne_present (hash : Key → Nat) (s : SlabHashState) (k : Key) (r r' : Nat)
    (h : findOne hash s k = some r) : insertOne hash s k r' = (s, r, true) := by
  obtain ⟨e, he, her⟩ := Option.map_eq_some'.mp h
  simp [insertOne, he, her]

theorem Rehash_bucket_count (hash : Key → Nat) (junk : Nat → Nat) (s : SlabHashState)
    (b : Nat) : (Rehash hash junk s b).bucket_count = b := by
  simp only [Rehash]
  split
  · rfl
  · rw [InsertImpl_bucket_count]
    simp [Allocate]

theorem Rehash_capacity (hash : Key → Nat) (junk : Nat → Nat) (s : SlabHashState)
    (b : Nat) : (Rehash hash junk s b).capacity =
      max (ceilDivNat (b * s.capacity) s.bucket_count) (Size s) := by
  simp only [Rehash]
  split
  · rfl
  · rw [InsertImpl_capacity]
    simp [Allocate]

theorem Rehash_heap_top (hash : Key → Nat) (junk : Nat → Nat) (s : SlabHashState)
    (b : Nat) : (Rehash hash junk s b).heap_top = Size s := by
  simp only [Rehash]
  split
  · next h => exact h.symm
  · rw [InsertImpl_heap_top]
    simp [Allocate]

theorem Rehash_n_values (hash : Key → Nat) (junk : Nat → Nat) (s : SlabHashState)
    (b : Nat) : (Rehash hash junk s b).n_values = s.n_values := by
  simp only [Rehash]
  split
  · rfl
  · rw [InsertImpl_n_values]
    simp [Allocate]

theorem eraseOne_heap_top (hash : Key → Nat) (s : SlabHashState) (k : Key) :
    (eraseOne hash s k).1.heap_top = s.heap_top := by
  simp only [eraseOne]
  split <;> rfl

theorem eraseOne_capacity (hash : Key → Nat) (s : SlabHashState) (k : Key) :
    (eraseOne hash s k).1.capacity = s.capacity := by
  simp only [eraseOne]
  split <;> rfl

theorem eraseOne_bucket_count (hash : Key → Nat) (s : SlabHashState) (k : Key) :
    (eraseOne hash s k).1.bucket_count = s.bucket_count := by
  simp only [eraseOne]
  split <;> rfl

theorem Erase_heap_top (hash : Key → Nat) (s : SlabHashState) (keys : List Key) :
    (Erase hash s keys).1.heap_top = s.heap_top := by
  induction keys generalizing s with
  | nil => rfl
  | cons k ks ih => simp [Erase, ih, eraseOne_heap_top]

theorem Erase_capacity (hash : Key → Nat) (s : SlabHashState) (keys : List Key) :
    (Erase hash s keys).1.capacity = s.capacity := by
  induction keys generalizing s with
  | nil => rfl
  | cons k ks ih => simp [Erase, ih, eraseOne_capacity]

theorem Erase_bucket_count (hash : Key → Nat) (s : SlabHashState) (keys : List Key) :
    (Erase hash s keys).1.bucket_count = s.bucket_count := by
  induction keys generalizing s with
  | nil => rfl
  | cons k ks ih => simp [Erase, ih, eraseOne_bucket_count]

/-! ### Claim theorems -/

/-- C1. For every batch of `N` pairwise-distinct keys not already
present, with `N` no larger than the remaining capacity
(`Size() + N ≤ capacity_`): after `Insert` completes, the `i`-th key was
assigned slot index `Size() + i` with a success mask, a `Find` on it
returns success with that same slot index, and `Size()` increases by
exactly `N`. -/
theorem insert_fresh_batch_spec (hash : Key → Nat) (junk : Nat → Nat)
    (s : SlabHashState) (keys : List Key) (vals : List (List Val))
    (hnd : keys.Nodup) (hfresh : ∀ k ∈ keys, findOne hash s k = none)
    (hcap : Size s + keys.length ≤ s.capacity) :
    Size (Insert hash junk s keys vals).1 = Size s + keys.length ∧
    ∀ i (h : i < keys.length),
      (Insert hash junk s keys vals).2.get? i = some (Size s + i, true) ∧
      findOne hash (Insert hash junk s keys vals).1 (keys.get ⟨i, h⟩) =
        some (Size s + i) := by
  have hcap' : s.heap_top + keys.length ≤ s.capacity := hcap
  have hnotlt : ¬ s.capacity < s.heap_top + keys.length := by omega
  constructor
  · simp only [Insert, Size, if_neg hnotlt]
    exact InsertImpl_heap_top hash s keys vals
  · intro i h
    simp only [Insert, Size, if_neg hnotlt]
    exact InsertImpl_spec hash s keys vals hnd hfresh i h

/-- Witness for the C1 theorem at a concrete input: inserting the fresh
distinct keys 3 and 5 into the empty capacity-4 backend grows `Size` from
0 to 2. -/
theorem insert_fresh_batch_spec_witness :
    Size (Insert id junk0 exEmpty [3, 5] []).1 = Size exEmpty + 2 :=
  (insert_fresh_batch_spec id junk0 exEmpty [3, 5] [] (by decide) (by decide)
    (by decide)).1

/-- C4. `Insert` performs a `Rehash` first exactly when
`Size() + N > capacity_`, with target bucket count
`max(bucket_count_ * 2, ceil((Size() + N) / (capacity_ / bucket_count_)))`
(the third conjunct checks that the embedded ceiling division equals the
claim's formula in exact rational arithmetic); otherwise it inserts into
the unchanged map. -/
theorem insert_capacity_policy (hash : Key → Nat) (junk : Nat → Nat)
    (s : SlabHashState) (keys : List Key) (vals : List (List Val)) :
    (Size s + keys.length ≤ s.capacity →
      Insert hash junk s keys vals = InsertImpl hash s keys vals) ∧
    (s.capacity < Size s + keys.length →
      Insert hash junk s keys vals =
        InsertImpl hash
          (Rehash hash junk s (max (s.bucket_count * 2)
            (ceilDivNat ((Size s + keys.length) * s.bucket_count) s.capacity)))
          keys vals) ∧
    (0 < s.capacity →
      (ceilDivNat ((Size s + keys.length) * s.bucket_count) s.capacity : ℤ) =
        ⌈((Size s + keys.length : Nat) : ℚ) /
          ((s.capacity : ℚ) / (s.bucket_count : ℚ))⌉) := by
  refine ⟨?_, ?_, ?_⟩
  · intro h
    simp only [Insert, if_neg (by omega : ¬ s.capacity < Size s + keys.length)]
  · intro h
    simp only [Insert, if_pos h]
  · intro h
    exact ceilDivNat_eq_rat_ceil h

/-- Witness for the C4 theorem: inserting one more key into `exOne`
(size 1, capacity 4) stays under capacity, so no rehash happens. -/
theorem insert_capacity_policy_witness :
    Insert id junk0 exOne [8] [] = InsertImpl id exOne [8] [] :=
  (insert_capacity_policy id junk0 exOne [8] []).1 (by decide)

/-- C9. `Activate` is definitionally `Insert` with an empty vector of
value columns: same resulting state, same output slot indices, same
masks. -/
theorem activate_is_insert_no_values (hash : Key → Nat) (junk : Nat → Nat)
    (s : SlabHashState) (keys : List Key) :
    Activate hash junk s keys = Insert hash junk s keys [] := rfl

/-- Lemma: with a value-column count different from the declared
`n_values_`, `InsertImpl` computes `n_values = 0` and skips the value
scatter, exactly as when no columns are supplied. -/
theorem InsertImpl_values_mismatch (hash : Key → Nat) (s : SlabHashState)
    (keys : List Key) (vals : List (List Val)) (h : vals.length ≠ s.n_values) :
    InsertImpl hash s keys vals = InsertImpl hash s keys [] := by
  by_cases hk : keys.length = 0
  · simp [InsertImpl, hk]
  · simp only [InsertImpl, if_neg hk]
    have h1 : (if vals.length = s.n_values then s.n_values else 0) = 0 := if_neg h
    have h2 : (if (List.length ([] : List (List Val))) = s.n_values
        then s.n_values else 0) = 0 := by
      simp only [List.length_nil]
      by_cases h0 : 0 = s.n_values
      · rw [if_pos h0]
        omega
      · rw [if_neg h0]
    rw [h1, h2]
    simp

/-- C10. When the number of supplied value columns differs from the
declared `n_values_`, an `Insert` call silently behaves as activate-only:
it is observationally identical (state, output indices, masks) to the
same call with no value columns — keys are still inserted, no value data
is written, and no error is raised. -/
theorem insert_value_arity_mismatch (hash : Key → Nat) (junk : Nat → Nat)
    (s : SlabHashState) (keys : List Key) (vals : List (List Val))
    (h : vals.length ≠ s.n_values) :
    Insert hash junk s keys vals = Insert hash junk s keys [] ∧
    InsertImpl hash s keys vals = InsertImpl hash s keys [] := by
  refine ⟨?_, InsertImpl_values_mismatch hash s keys vals h⟩
  simp only [Insert]
  split
  · next hc =>
      apply InsertImpl_values_mismatch
      rw [Rehash_n_values]
      exact h
  · exact InsertImpl_values_mismatch hash s keys vals h

/-- Witness for the C10 theorem: two value columns supplied against one
declared column. -/
theorem insert_value_arity_mismatch_witness :
    InsertImpl id exVal [3] [[5], [6]] = InsertImpl id exVal [3] [] :=
  (insert_value_arity_mismatch id junk0 exVal [3] [[5], [6]] (by decide)).2

/-- C2, counterexample. Re-inserting the already-present key 7 into
`exOne` does return success with the original slot index 0, but `Size()`
— which is the heap top, bumped unconditionally by `InsertImpl` — grows
from 1 to 2, contradicting the claim that it does not increase. -/
theorem reinsert_size_counterexample :
    (Insert id junk0 exOne [7] []).2 = [(0, true)] ∧
    Size exOne = 1 ∧
    Size (Insert id junk0 exOne [7] []).1 = 2 ∧
    Size (Insert id junk0 exOne [7] []).1 ≠ Size exOne := by decide

/-- C2, amended. Re-inserting a present key (while staying under
capacity, so that no automatic rehash reassigns slots) returns
success with the original slot index, but `Size()` increases by the batch
count 1: the pre-reserved heap slot is wasted, not returned. -/
theorem reinsert_present_key_spec (hash : Key → Nat) (junk : Nat → Nat)
    (s : SlabHashState) (k : Key) (r : Nat) (vals : List (List Val))
    (hpres : findOne hash s k = some r) (hcap : Size s + 1 ≤ s.capacity) :
    (Insert hash junk s [k] vals).2 = [(r, true)] ∧
    Size (Insert hash junk s [k] vals).1 = Size s + 1 := by
  have hcap' : s.heap_top + 1 ≤ s.capacity := hcap
  have hc1 : ¬ s.capacity < s.heap_top + ([k] : List Key).length := by
    simp only [List.length_cons, List.length_nil]
    omega
  have hIns : Insert hash junk s [k] vals = InsertImpl hash s [k] vals := by
    simp only [Insert, Size, if_neg hc1]
  have h0 : findOne hash
      { s with heap_top := s.heap_top + ([k] : List Key).length } k = some r := hpres
  have hlen : ¬ ([k] : List Key).length = 0 := by simp
  have hloop : insertLoop hash
      { s with heap_top := s.heap_top + ([k] : List Key).length } [k] s.heap_top =
      ({ s with heap_top := s.heap_top + ([k] : List Key).length }, [(r, true)]) := by
    simp only [insertLoop]
    rw [insertOne_present hash _ k r s.heap_top h0]
  rw [hIns]
  constructor
  · simp only [InsertImpl, if_neg hlen]
    rw [hloop]
  · simp only [Size]
    rw [InsertImpl_heap_top]
    simp

/-- Witness for the amended C2 theorem at `exOne` and its key 7. -/
theorem reinsert_present_key_spec_witness :
    (Insert id junk0 exOne [7] []).2 = [(0, true)] ∧
    Size (Insert id junk0 exOne [7] []).1 = Size exOne + 1 :=
  reinsert_present_key_spec id junk0 exOne 7 0 [] (by decide) (by decide)

/-- C5, counterexample. At `exOne` (capacity 4, 8 buckets, Size 1 with
one live entry), `Rehash(16)` allocates capacity
`max(ceil(16 * capacity_ / bucket_count_), Size()) = 8`, not the claim's
`max(ceil(16 * Size() / bucket_count_), live entries) = 2`. -/
theorem rehash_capacity_formula_counterexample :
    (Rehash id junk0 exOne 16).capacity = 8 ∧
    max (ceilDivNat (16 * Size exOne) exOne.bucket_count)
      (GetActiveIndices exOne).length = 2 ∧
    ¬ ((Rehash id junk0 exOne 16).capacity =
        max (ceilDivNat (16 * Size exOne) exOne.bucket_count)
          (GetActiveIndices exOne).length) := by decide

/-- C5, amended. `Rehash(b)` allocates a heap-buffer capacity of
`max(ceil(b * capacity_ / bucket_count_), Size())` — the first operand
uses the previous average *capacity* per bucket (not the load factor
`Size() / bucket_count_`), and the second is `Size()` (the heap-top
count of ever-reserved slots, not the number of live entries) — so the
new capacity always accommodates every reserved slot, in particular all
live entries. -/
theorem rehash_capacity_spec (hash : Key → Nat) (junk : Nat → Nat)
    (s : SlabHashState) (b : Nat) :
    (Rehash hash junk s b).capacity =
      max (ceilDivNat (b * s.capacity) s.bucket_count) (Size s) ∧
    Size s ≤ (Rehash hash junk s b).capacity := by
  refine ⟨Rehash_capacity hash junk s b, ?_⟩
  rw [Rehash_capacity]
  exact le_max_right _ _

/-- C8. After `Clear()`: `Size()` is 0, `Find` on every key (in
particular every previously inserted one) fails, and the backing memory
is retained — capacity, bucket count, declared value columns, and the
key/value buffer contents are unchanged, so the map is immediately
reusable at the same capacity. -/
theorem clear_spec (hash : Key → Nat) (s : SlabHashState) :
    Size (Clear s) = 0 ∧
    (∀ k : Key, findOne hash (Clear s) k = none) ∧
    (Clear s).capacity = s.capacity ∧
    (Clear s).bucket_count = s.bucket_count ∧
    (Clear s).n_values = s.n_values ∧
    (Clear s).keyBuf = s.keyBuf ∧
    (Clear s).valBuf = s.valBuf := by
  refine ⟨rfl, ?_, rfl, rfl, rfl, rfl, rfl⟩
  intro k
  simp [findOne, Clear]

theorem find?_eraseP_of_countP_le_one {α : Type} (p : α → Bool) (l : List α)
    (h : l.countP p ≤ 1) : (l.eraseP p).find? p = none := by
  induction l with
  | nil => rfl
  | cons a as ih =>
      by_cases ha : p a
      · rw [List.eraseP_cons_of_pos ha, List.find?_eq_none]
        intro x hx
        have hc : as.countP p = 0 := by
          rw [List.countP_cons, if_pos ha] at h
          omega
        exact (List.countP_eq_zero.mp hc) x hx
      · rw [List.eraseP_cons_of_neg ha, List.find?_cons_of_neg _ ha]
        apply ih
        rw [List.countP_cons, if_neg ha] at h
        omega

/-- C7. Under the slab invariant that a key occurs at most once in its
bucket chain: erasing a present key succeeds (`mask = true`) and a
subsequent `Find` on it fails; erasing an absent key reports
`mask = false` and returns the map state unchanged. -/
theorem erase_find_spec (hash : Key → Nat) (s : SlabHashState) (k : Key)
    (huniq : (s.buckets (hash k % s.bucket_count)).countP (fun e => e.1 == k) ≤ 1) :
    (∀ r, findOne hash s k = some r →
      (Erase hash s [k]).2 = [true] ∧
      findOne hash (Erase hash s [k]).1 k = none) ∧
    (findOne hash s k = none → Erase hash s [k] = (s, [false])) := by
  constructor
  · intro r hr
    obtain ⟨e, he, _⟩ := Option.map_eq_some'.mp hr
    have hmem := List.mem_of_find?_eq_some he
    have hpe := List.find?_some he
    have hany : (s.buckets (hash k % s.bucket_count)).any (fun e => e.1 == k) = true :=
      List.any_eq_true.mpr ⟨e, hmem, hpe⟩
    have herase : eraseOne hash s k =
        ({ s with buckets := fun i => if i = hash k % s.bucket_count
              then (s.buckets (hash k % s.bucket_count)).eraseP (fun e => e.1 == k)
              else s.buckets i }, true) := by
      simp only [eraseOne, if_pos hany]
    constructor
    · simp only [Erase]
      rw [herase]
    · simp only [Erase]
      rw [herase]
      have hnone := find?_eraseP_of_countP_le_one (fun e => e.1 == k)
        (s.buckets (hash k % s.bucket_count)) huniq
      simp [findOne, hnone]
  · intro hnone
    have hf : (s.buckets (hash k % s.bucket_count)).find? (fun e => e.1 == k) = none := by
      simpa [findOne] using hnone
    have hany : ¬ ((s.buckets (hash k % s.bucket_count)).any
        (fun e => e.1 == k) = true) := by
      rw [List.any_eq_true]
      rintro ⟨x, hx, hpx⟩
      exact (List.find?_eq_none.mp hf) x hx hpx
    have herase : eraseOne hash s k = (s, false) := by
      simp only [eraseOne, if_neg hany]
    simp only [Erase]
    rw [herase]

/-- Witness for the C7 theorem at `exOne`: erasing the present key 7
succeeds and makes `Find 7` fail; the absent-key part is exercised by the
theorem's second conjunct at the same state. -/
theorem erase_find_spec_witness :
    (Erase id exOne [7]).2 = [true] ∧ findOne id (Erase id exOne [7]).1 7 = none :=
  (erase_find_spec id exOne 7 (by decide)).1 0 (by decide)

/-- C3, failing-input evaluation. `exErased` holds keys 10, 11 at heap
slots 0, 1 and then erased key 11, so `Size() = heap_top = 2` but only one
entry is live.  `Rehash(8)` gathers `Size()` buffer indices although
`GetActiveIndicesKernel` wrote only one, so the second index is read from
uninitialized memory; when that memory happens to contain 1 (the erased
slot), the erased key 11 is resurrected: it is absent before the rehash
and present after it, although `Size()` is preserved.  This contradicts
the claim that `Rehash` preserves the exact set of mappings for every map
state. -/
theorem rehash_junk_read_bug :
    findOne id exErased 11 = none ∧
    findOne id (Rehash id (fun _ => 1) exErased 8) 11 = some 1 ∧
    Size (Rehash id (fun _ => 1) exErased 8) = Size exErased ∧
    (GetActiveIndices exErased).length ≠ Size exErased := by decide

theorem WF_mkBackend (cap nv : Nat) (h : 0 < cap) : WF (mkBackend cap nv) := by
  refine ⟨?_, h, Nat.zero_le _⟩
  show 0 < cap * 2
  omega

theorem WF_Rehash (hash : Key → Nat) (junk : Nat → Nat) (s : SlabHashState)
    (b : Nat) (hb : 0 < b) (h : WF s) : WF (Rehash hash junk s b) := by
  obtain ⟨hbc, hcap, hheap⟩ := h
  refine ⟨?_, ?_, ?_⟩
  · rw [Rehash_bucket_count]
    exact hb
  · rw [Rehash_capacity]
    have h1 : 0 < ceilDivNat (b * s.capacity) s.bucket_count :=
      ceilDivNat_pos (Nat.mul_pos hb hcap) hbc
    exact Nat.lt_of_lt_of_le h1 (Nat.le_max_left _ _)
  · rw [Rehash_heap_top, Rehash_capacity]
    exact Nat.le_max_right _ _

theorem WF_Insert (hash : Key → Nat) (junk : Nat → Nat) (s : SlabHashState)
    (keys : List Key) (vals : List (List Val)) (h : WF s) :
    WF (Insert hash junk s keys vals).1 := by
  obtain ⟨hbc, hcap, hheap⟩ := h
  by_cases hlt : s.capacity < s.heap_top + keys.length
  · simp only [Insert, Size, if_pos hlt]
    have heb : ceilDivNat ((s.heap_top + keys.length) * s.bucket_count) s.capacity ≤
        max (s.bucket_count * 2)
          (ceilDivNat ((s.heap_top + keys.length) * s.bucket_count) s.capacity) :=
      Nat.le_max_right _ _
    have h1 : s.heap_top + keys.length ≤
        ceilDivNat ((max (s.bucket_count * 2)
            (ceilDivNat ((s.heap_top + keys.length) * s.bucket_count) s.capacity)) *
          s.capacity) s.bucket_count :=
      rehash_capacity_bound hbc hcap heb
    refine ⟨?_, ?_, ?_⟩
    · rw [InsertImpl_bucket_count, Rehash_bucket_count]
      exact Nat.lt_of_lt_of_le (by omega : 0 < s.bucket_count * 2) (Nat.le_max_left _ _)
    · rw [InsertImpl_capacity, Rehash_capacity]
      exact Nat.lt_of_lt_of_le
        (Nat.lt_of_lt_of_le (by omega : 0 < s.heap_top + keys.length) h1)
        (Nat.le_max_left _ _)
    · rw [InsertImpl_heap_top, Rehash_heap_top, InsertImpl_capacity, Rehash_capacity]
      exact le_trans h1 (Nat.le_max_left _ _)
  · simp only [Insert, Size, if_neg hlt]
    refine ⟨?_, ?_, ?_⟩
    · rw [InsertImpl_bucket_count]
      exact hbc
    · rw [InsertImpl_capacity]
      exact hcap
    · rw [InsertImpl_heap_top, InsertImpl_capacity]
      omega

/-- C6. The invariant `heap_top_ ≤ capacity_` (bundled with the
well-formedness facts `0 < bucket_count_` and `0 < capacity_` that the
arithmetic needs) holds after construction with a positive capacity and
is preserved by `Insert` (including its automatic pre-batch `Rehash`,
whose allocation sizing keeps the heap-top bump within the new capacity),
`Activate`, `Erase`, caller-invoked `Rehash` with a positive target, and
`Clear`.  `Find` is read-only in the embedding (it returns only outputs),
so it preserves every state property by construction. -/
theorem heap_top_le_capacity_invariant (hash : Key → Nat) (junk : Nat → Nat) :
    (∀ cap nv, 0 < cap → WF (mkBackend cap nv)) ∧
    (∀ s keys vals, WF s → WF (Insert hash junk s keys vals).1) ∧
    (∀ s keys, WF s → WF (Activate hash junk s keys).1) ∧
    (∀ s keys, WF s → WF (Erase hash s keys).1) ∧
    (∀ s b, 0 < b → WF s → WF (Rehash hash junk s b)) ∧
    (∀ s, WF s → WF (Clear s)) := by
  refine ⟨WF_mkBackend, ?_, ?_, ?_, ?_, ?_⟩
  · intro s keys vals h
    exact WF_Insert hash junk s keys vals h
  · intro s keys h
    exact WF_Insert hash junk s keys [] h
  · intro s keys h
    obtain ⟨hbc, hcap, hheap⟩ := h
    refine ⟨?_, ?_, ?_⟩
    · rw [Erase_bucket_count]
      exact hbc
    · rw [Erase_capacity]
      exact hcap
    · rw [Erase_heap_top, Erase_capacity]
      exact hheap
  · intro s b hb h
    exact WF_Rehash hash junk s b hb h
  · intro s h
    exact ⟨h.1, h.2.1, Nat.zero_le _⟩

/-- Witness for the C6 theorem: inserting five keys into the capacity-4
`exEmpty` exercises the automatic-rehash path of `Insert` and keeps the
invariant. -/
theorem heap_top_le_capacity_invariant_witness :
    WF (Insert id junk0 exEmpty [1, 2, 3, 4, 5] []).1 :=
  (heap_top_le_capacity_invariant id junk0).2.1 exEmpty [1, 2, 3, 4, 5] []
    ⟨by decide, by decide, by decide⟩

end SlabHash
